import Mathlib

/-!
Verification development for the ip2asn repository (src/ip2asn.py).

The script delegates the longest-prefix-match trie entirely to the
pytricia library, so the trie engine, the prefix key codec and the
address privacy test are modelled from the specification (sections 4.1,
4.2, 4.3 and 6 of spec.md); every definition carrying such a model says
so in its doc comment.  Everything else (RIB-dump record extraction,
cache-file decision logic, the stdin query batch, the two output modes)
is embedded directly from the Python source.
-/

namespace IpToAsn

/-- Modelled from the spec: an address family tag, section 3 of spec.md
(the trie engine keeps IPv4 and IPv6 in logically separate trees). -/
inductive Family : Type
  | v4
  | v6
deriving DecidableEq

/-- Modelled from the spec: the fixed key width of a family (32 bits for
IPv4, 128 bits for IPv6). -/
def Family.width : Family → Nat
  | .v4 => 32
  | .v6 => 128

/-- Modelled from the spec: a CIDR Prefix value, section 3 of spec.md:
family, fixed-width unsigned bits and a significant-bit length. -/
structure Pfx : Type where
  family : Family
  bits : Nat
  len : Nat
deriving DecidableEq

/-- Modelled from the spec: a host address (no length), section 3. -/
structure Addr : Type where
  family : Family
  bits : Nat
deriving DecidableEq

/-- The low `w` bits of `n`, most significant first. -/
def toBits : Nat → Nat → List Bool
  | 0, _ => []
  | w + 1, n => toBits w (n / 2) ++ [decide (n % 2 = 1)]

/-- Read back a most-significant-first bit list as a natural number. -/
def ofBits (l : List Bool) : Nat :=
  l.foldl (fun n b => 2 * n + (if b then 1 else 0)) 0

/-- The significant bits of a prefix: the first `len` bits of its
fixed-width key (bits beyond the width are discarded, as the codec masks
them). -/
def pfxBits (p : Pfx) : List Bool :=
  (toBits p.family.width p.bits).take p.len

/-- The full-width bit string of a query address. -/
def addrBits (a : Addr) : List Bool :=
  toBits a.family.width a.bits

/-- The canonical prefix of a family determined by a bit path: the path
bits padded with zeros to the family width, with the path length as the
significant length. -/
def pathPfx (f : Family) (q : List Bool) : Pfx :=
  ⟨f, ofBits (q ++ List.replicate (f.width - q.length) false), q.length⟩

/-- Canonical form of a prefix (bits beyond `len` zeroed). -/
def Pfx.canon (p : Pfx) : Pfx := pathPfx p.family (pfxBits p)

/-- Modelled from the spec: a node of the binary radix tree, section 3
of spec.md: an optional Route value plus children for bit 0 and bit 1
(`nil` stands for an absent child). -/
inductive BTrie (α : Type) : Type
  | nil
  | node (val : Option α) (zero one : BTrie α)
deriving DecidableEq

/-- Modelled from the spec: `insert`, section 4.2: descend the bits of
the prefix, creating branch nodes as needed, and attach or overwrite the
Route at the terminal node. -/
def insertB : BTrie α → List Bool → α → BTrie α
  | .nil, [], x => .node (some x) .nil .nil
  | .node _ l r, [], x => .node (some x) l r
  | .nil, b :: bs, x =>
    if b then .node none .nil (insertB .nil bs x)
    else .node none (insertB .nil bs x) .nil
  | .node v l r, b :: bs, x =>
    if b then .node v l (insertB r bs x)
    else .node v (insertB l bs x) r

/-- First-defined choice on options: the first argument when present,
otherwise the second. -/
def optOr : Option α → Option α → Option α
  | some x, _ => some x
  | none, b => b

/-- Modelled from the spec: the longest-prefix-match walk of section
4.2: descend the address bits from the root, remembering as current best
the Route of every visited node that carries one; stop when the bits are
exhausted or the required child is absent. -/
def lookAcc : BTrie α → List Bool → Option α → Option α
  | .nil, _, best => best
  | .node v _ _, [], best => optOr v best
  | .node v l r, b :: bs, best => lookAcc (if b then r else l) bs (optOr v best)

/-- Accumulator-free form of the longest-prefix-match walk: the deepest
Route found below overrides the Route of the current node. -/
def look : BTrie α → List Bool → Option α
  | .nil, _ => none
  | .node v _ _, [] => v
  | .node v l r, b :: bs => optOr (look (if b then r else l) bs) v

/-- Modelled from the spec: route enumeration (`iter_routes`), section
4.2, with each stored Route keyed by its bit path from the root. -/
def routesB : BTrie α → List (List Bool × α)
  | .nil => []
  | .node v l r =>
    (match v with | some x => [([], x)] | none => [])
      ++ (routesB l).map (fun pr => (false :: pr.1, pr.2))
      ++ (routesB r).map (fun pr => (true :: pr.1, pr.2))

/-- The Route stored at an exact bit path, if any. -/
def routeAt : BTrie α → List Bool → Option α
  | .nil, _ => none
  | .node v _ _, [] => v
  | .node _ l r, b :: bs => routeAt (if b then r else l) bs

/-- Modelled from the spec: the trie with logically separate IPv4 and
IPv6 trees (section 4.2, family separation). -/
structure Trie (α : Type) : Type where
  v4 : BTrie α
  v6 : BTrie α
deriving DecidableEq

def Trie.empty : Trie α := ⟨.nil, .nil⟩

/-- The per-family tree of a trie. -/
def Trie.fam (t : Trie α) : Family → BTrie α
  | .v4 => t.v4
  | .v6 => t.v6

/-- Modelled from the spec: `insert(prefix, asn)`, section 4.2: the
prefix key is inserted into the tree of its family. -/
def Trie.insert (t : Trie α) (p : Pfx) (x : α) : Trie α :=
  match p.family with
  | .v4 => ⟨insertB t.v4 (pfxBits p) x, t.v6⟩
  | .v6 => ⟨t.v4, insertB t.v6 (pfxBits p) x⟩

/-- Modelled from the spec: `lookup_longest_match(address)`, section
4.2: walk the full-width address bits in the tree of the address
family, remembering the deepest Route seen. -/
def Trie.lookup (t : Trie α) (a : Addr) : Option α :=
  lookAcc (t.fam a.family) (addrBits a) none

/-- Modelled from the spec: `iter_routes()`, section 4.2, with each bit
path decoded back to its canonical prefix. -/
def Trie.routes (t : Trie α) : List (Pfx × α) :=
  (routesB t.v4).map (fun pr => (pathPfx .v4 pr.1, pr.2))
    ++ (routesB t.v6).map (fun pr => (pathPfx .v6 pr.1, pr.2))

/-- A trie built by inserting a list of prefix bindings in order,
starting from the empty trie. -/
def buildTrie (l : List (Pfx × α)) : Trie α :=
  l.foldl (fun t pr => t.insert pr.1 pr.2) Trie.empty

/-- Decidable containment of an address in a prefix: same family and
the significant prefix bits lead the address bits. -/
def containsA (p : Pfx) (a : Addr) : Bool :=
  decide (p.family = a.family) && (pfxBits p).isPrefixOf (addrBits a)

/-- Every route path of a per-family tree of a built trie is at most
the family width long. -/
def BoundedB (w : Nat) (t : BTrie α) : Prop :=
  ∀ pr ∈ routesB t, (pr : List Bool × α).1.length ≤ w

def Bounded (t : Trie α) : Prop :=
  BoundedB (Family.width .v4) t.v4 ∧ BoundedB (Family.width .v6) t.v6

/-- The per-family projection of a binding list: the bit paths and
values of the bindings of that family, in order. -/
def projF (f : Family) (l : List (Pfx × α)) : List (List Bool × α) :=
  l.filterMap (fun pr =>
    if pr.1.family = f then some (pfxBits pr.1, pr.2) else none)

/-- The value of the last binding in the list whose bit path is exactly
`q`, if any (later inserts overwrite earlier ones, so the last binding
for a path determines the stored route). -/
def lastVal : List (List Bool × α) → List Bool → Option α
  | [], _ => none
  | pr :: rest, q => optOr (lastVal rest q) (if pr.1 = q then some pr.2 else none)

/-- The whitespace set of Python str.split with no arguments: space,
tab, newline, carriage return, vertical tab and form feed. -/
def isPySpace (c : Char) : Bool :=
  c = ' ' || c = '\t' || c = '\n' || c = '\r' || c = '\x0b' || c = '\x0c'

def pySplitAux : List Char → List Char → List String
  | acc, [] => if acc.isEmpty then [] else [String.mk acc.reverse]
  | acc, c :: cs =>
    if isPySpace c then
      if acc.isEmpty then pySplitAux [] cs
      else String.mk acc.reverse :: pySplitAux [] cs
    else pySplitAux (c :: acc) cs

/-- Python str.split() with no arguments: split on runs of whitespace,
discarding empty pieces. -/
def pySplit (s : String) : List String := pySplitAux [] s.data

/-- Python line.split()[-1], with a default for the impossible empty
case: the callers apply it only to lines that start with a
non-whitespace marker, so the token list is never empty. -/
def pyLastTok (s : String) : String := (pySplit s).getLastD ""

/-- Python str.startswith. -/
def pyStartsWith (s marker : String) : Bool := marker.data.isPrefixOf s.data

/-- Python str.strip(): drop leading and trailing whitespace. -/
def pyStrip (s : String) : String :=
  String.mk (((s.data.dropWhile isPySpace).reverse.dropWhile isPySpace).reverse)

/-- The record-extraction loop of build_trie_from_rib (src/ip2asn.py,
lines 88-95): a PREFIX: line stores its last token as the pending
prefix; an ASPATH: line, when a truthy pending prefix exists, emits the
pair (pending prefix, last token of the line) and clears the pending
prefix; every other line leaves the state unchanged. -/
def ribGo : Option String → List String → List (String × String)
  | _, [] => []
  | cur, ln :: ls =>
    if pyStartsWith ln "PREFIX:" then ribGo (some (pyLastTok ln)) ls
    else if pyStartsWith ln "ASPATH:" then
      match cur with
      | some p =>
        if p = "" then ribGo (some p) ls
        else (p, pyLastTok ln) :: ribGo none ls
      | none => ribGo none ls
    else ribGo cur ls

/-- The pending-prefix state left behind by the record-extraction loop
after consuming a list of lines. -/
def ribState : Option String → List String → Option String
  | cur, [] => cur
  | cur, ln :: ls =>
    if pyStartsWith ln "PREFIX:" then ribState (some (pyLastTok ln)) ls
    else if pyStartsWith ln "ASPATH:" then
      match cur with
      | some p =>
        if p = "" then ribState (some p) ls
        else ribState none ls
      | none => ribState none ls
    else ribState cur ls

/-- The (prefix, asn) records that build_trie_from_rib inserts into the
trie, in order. -/
def buildPairs (lines : List String) : List (String × String) :=
  ribGo none lines

/-- Whether a list of lines is empty or begins with a PREFIX: line. -/
def headOk (rest : List String) : Bool :=
  match rest with
  | [] => true
  | q :: _ => pyStartsWith q "PREFIX:"

def isDigitC (c : Char) : Bool := '0' ≤ c && c ≤ '9'

def digitVal (c : Char) : Nat := c.toNat - '0'.toNat

def parseDec (l : List Char) : Option Nat :=
  if l.isEmpty then none
  else if l.all isDigitC then some (l.foldl (fun n c => n * 10 + digitVal c) 0)
  else none

def parseOctet (l : List Char) : Option Nat :=
  match parseDec l with
  | some n => if n ≤ 255 then some n else none
  | none => none

/-- Split on a separator character, keeping empty pieces. -/
def splitOnC (sep : Char) : List Char → List (List Char)
  | [] => [[]]
  | c :: cs =>
    let r := splitOnC sep cs
    if c = sep then [] :: r
    else
      match r with
      | [] => [[c]]
      | h :: t => (c :: h) :: t

/-- Modelled from the spec: the IPv4 side of the Prefix Key Codec
(section 4.1 of spec.md): dotted-quad text a.b.c.d with numeric octets
up to 255 becomes a 32-bit value; anything else is malformed.  The
program delegates parsing to the pytricia and ipaddress libraries,
which are not part of the repository. -/
def parseIPv4c (l : List Char) : Option Nat :=
  match splitOnC '.' l with
  | [a, b, c, d] => do
    let x ← parseOctet a
    let y ← parseOctet b
    let z ← parseOctet c
    let w ← parseOctet d
    pure (((x * 256 + y) * 256 + z) * 256 + w)
  | _ => none

def isHexC (c : Char) : Bool :=
  isDigitC c || ('a' ≤ c && c ≤ 'f') || ('A' ≤ c && c ≤ 'F')

def hexVal (c : Char) : Nat :=
  if isDigitC c then digitVal c
  else if 'a' ≤ c && c ≤ 'f' then c.toNat - 'a'.toNat + 10
  else c.toNat - 'A'.toNat + 10

def parseHexGroup (l : List Char) : Option Nat :=
  if l.isEmpty || decide (4 < l.length) then none
  else if l.all isHexC then some (l.foldl (fun n c => n * 16 + hexVal c) 0)
  else none

def parseGroups (ls : List (List Char)) : Option (List Nat) :=
  ls.mapM parseHexGroup

/-- Split at the first double colon, when present. -/
def splitDC : List Char → Option (List Char × List Char)
  | [] => none
  | [_] => none
  | ':' :: ':' :: rest => some ([], rest)
  | c :: rest => (splitDC rest).map (fun pr => (c :: pr.1, pr.2))

def combine16 (gs : List Nat) : Nat := gs.foldl (fun n g => n * 65536 + g) 0

/-- Modelled from the spec: the IPv6 side of the Prefix Key Codec
(section 4.1): colon-separated 16-bit hexadecimal groups, with at most
one double-colon abbreviation standing for the zero groups needed to
reach eight. -/
def parseIPv6c (l : List Char) : Option Nat :=
  match splitDC l with
  | none =>
    match parseGroups (splitOnC ':' l) with
    | some gs => if gs.length = 8 then some (combine16 gs) else none
    | none => none
  | some (lft, rgt) =>
    if (splitDC lft).isSome || (splitDC rgt).isSome then none
    else
      match (if lft.isEmpty then some [] else parseGroups (splitOnC ':' lft)),
          (if rgt.isEmpty then some [] else parseGroups (splitOnC ':' rgt)) with
      | some lg, some rg =>
        if lg.length + rg.length ≤ 7 then
          some (combine16 (lg ++ List.replicate (8 - lg.length - rg.length) 0 ++ rg))
        else none
      | _, _ => none

/-- Modelled from the spec: parse_address (section 4.1): family
detection by the presence of a colon, then the per-family literal
parser; malformed literals yield no address. -/
def parseAddr (s : String) : Option Addr :=
  if s.data.contains ':' then (parseIPv6c s.data).map (fun n => ⟨.v6, n⟩)
  else (parseIPv4c s.data).map (fun n => ⟨.v4, n⟩)

/-- The canonical masked value: the first `len` of the `w` low bits,
padded with zeros. -/
def maskTo (w len bits : Nat) : Nat :=
  ofBits ((toBits w bits).take len ++ List.replicate (w - len) false)

/-- Modelled from the spec: parse_prefix (section 4.1): address/len or a
bare address (implicit full length); out-of-range lengths are rejected
and bits beyond the length are masked to zero. -/
def parsePfxStr (s : String) : Option Pfx :=
  match splitOnC '/' s.data with
  | [a] =>
    (parseAddr (String.mk a)).map (fun ad => ⟨ad.family, ad.bits, ad.family.width⟩)
  | [a, lstr] => do
    let ad ← parseAddr (String.mk a)
    let n ← parseDec lstr
    if n ≤ ad.family.width then
      pure ⟨ad.family, maskTo ad.family.width n ad.bits, n⟩
    else none
  | _ => none

/-- Modelled from the spec: the privacy classes the front-end filters
(sections 2, 4.1 and 6 of spec.md): RFC-1918, loopback and link-local
ranges for IPv4; loopback, unique-local and link-local for IPv6.  The
program delegates this to ipaddress.ip_address(...).is_private, which is
outside the repository. -/
def isPrivateAddr (a : Addr) : Bool :=
  match a.family with
  | .v4 =>
    containsA ⟨.v4, 0x0A000000, 8⟩ a || containsA ⟨.v4, 0xAC100000, 12⟩ a
      || containsA ⟨.v4, 0xC0A80000, 16⟩ a || containsA ⟨.v4, 0x7F000000, 8⟩ a
      || containsA ⟨.v4, 0xA9FE0000, 16⟩ a
  | .v6 =>
    containsA ⟨.v6, 1, 128⟩ a
      || containsA ⟨.v6, 0xfc000000000000000000000000000000, 7⟩ a
      || containsA ⟨.v6, 0xfe800000000000000000000000000000, 10⟩ a

/-- The error outcomes of the script: an uncaught ValueError from
literal parsing, an uncaught error while decoding the cache file, or an
explicit sys.exit code. -/
inductive PyErr : Type
  | valueError
  | loadError
  | exitCode (n : Nat)
deriving DecidableEq

/-- is_private_ip (src/ip2asn.py lines 60-70): ipaddress.ip_address
raises ValueError on an invalid literal; otherwise the privacy class of
the parsed address is tested. -/
def is_private_ip (ip : String) : Except PyErr Bool :=
  match parseAddr ip with
  | none => .error .valueError
  | some a => .ok (isPrivateAddr a)

/-- The list comprehension of src/ip2asn.py line 157: keep the
addresses that are not private, evaluating is_private_ip left to right;
a raised ValueError aborts the whole batch. -/
def filterIps : List String → Except PyErr (List String)
  | [] => .ok []
  | ip :: rest =>
    match is_private_ip ip with
    | .error e => .error e
    | .ok b =>
      match filterIps rest with
      | .error e => .error e
      | .ok l => .ok (if b then l else ip :: l)

/-- pytricia trie.get(ip): parse the address (raising on an invalid
literal) and answer the longest-prefix match, None when absent. -/
def trieGet (t : Trie α) (ip : String) : Except PyErr (Option α) :=
  match parseAddr ip with
  | none => .error .valueError
  | some a => .ok (t.lookup a)

/-- Python dict assignment d[k] = v: replace the (unique) binding of k
in place when present, otherwise append a new binding. -/
def dictInsert : List (String × β) → String → β → List (String × β)
  | [], k, v => [(k, v)]
  | e :: m, k, v => if e.1 = k then (k, v) :: m else e :: dictInsert m k v

def findAsnGo (t : Trie α) (m : List (String × Option α)) :
    List String → Except PyErr (List (String × Option α))
  | [] => .ok m
  | ip :: rest =>
    match trieGet t ip with
    | .error e => .error e
    | .ok v => findAsnGo t (dictInsert m ip v) rest

/-- find_asn_for_ips (src/ip2asn.py lines 123-137): a dict keyed by the
address string, assigned trie.get(ip) for each queried address in
order. -/
def find_asn_for_ips (ips : List String) (t : Trie α) :
    Except PyErr (List (String × Option α)) :=
  findAsnGo t [] ips

/-- The query phase of src/ip2asn.py lines 156-158: strip each stdin
line, drop the private addresses (an invalid literal raises), then
build the address-to-ASN map. -/
def runBatch (stdinLines : List String) (t : Trie α) :
    Except PyErr (List (String × Option α)) :=
  match filterIps (stdinLines.map pyStrip) with
  | .error e => .error e
  | .ok ips => find_asn_for_ips ips t

/-- A line is a public valid literal: it parses and is not private. -/
def publicLit (s : String) : Bool :=
  match parseAddr s with
  | some a => !isPrivateAddr a
  | none => false

/-- The bucket label of src/ip2asn.py lines 163-166: AS<asn> for a
truthy ASN value, NOT_FOUND otherwise (None and the empty string are
falsy in Python). -/
def bucketKey : Option String → String
  | some s => if s = "" then "NOT_FOUND" else "AS" ++ s
  | none => "NOT_FOUND"

/-- defaultdict(list) append: extend the bucket of the key, creating it
at the end on first use. -/
def addToBucket : List (String × List String) → String → String →
    List (String × List String)
  | [], k, ip => [(k, [ip])]
  | b :: bs, k, ip =>
    if b.1 = k then (b.1, b.2 ++ [ip]) :: bs else b :: addToBucket bs k ip

/-- The JSON grouping of src/ip2asn.py lines 160-167: append each
address of the result map to the bucket of its ASN. -/
def jsonGroup (m : List (String × Option String)) :
    List (String × List String) :=
  m.foldl (fun bs e => addToBucket bs (bucketKey e.2) e.1) []

/-- Total occurrences of an address across all buckets. -/
def totalOcc (x : String) (bs : List (String × List String)) : Nat :=
  (bs.map (fun b => b.2.countP (fun y => decide (y = x)))).sum

/-- The decoded content of a gzip JSON snapshot file: either corrupt
(decompression or JSON decoding raises) or a well-formed mapping from
prefix text to ASN text, in key order. -/
inductive FileData : Type
  | corrupt
  | good (entries : List (String × String))
deriving DecidableEq

/-- The file-system state the script consults: the optional
trie_data.json.gz in the working directory, the optional cache file at
~/.ip2asn/trie_data.json.gz, and the optional RIB dump lines. -/
structure World : Type where
  cwd : Option FileData
  cache : Option FileData
  rib : Option (List String)
deriving DecidableEq

/-- setup_trie_data (src/ip2asn.py lines 29-55): when the working
directory holds trie_data.json.gz, copy it over the cache file;
otherwise do nothing. -/
def setup_trie_data (w : World) : World :=
  match w.cwd with
  | some f => { w with cache := some f }
  | none => w

/-- Insert one textual (prefix, asn) record into the trie: pytricia
parses the prefix text, raising ValueError on a malformed prefix. -/
def strInsert (t : Trie String) (pr : String × String) :
    Except PyErr (Trie String) :=
  match parsePfxStr pr.1 with
  | none => .error .valueError
  | some p => .ok (t.insert p pr.2)

def trieOfPairs (prs : List (String × String)) : Except PyErr (Trie String) :=
  prs.foldlM strInsert Trie.empty

/-- load_trie_from_file (src/ip2asn.py lines 106-121): decode the gzip
JSON mapping (raising on a corrupt file, with no handler anywhere on
the call path) and insert every entry into a fresh trie. -/
def load_trie_from_file : FileData → Except PyErr (Trie String)
  | .corrupt => .error .loadError
  | .good entries => trieOfPairs entries

/-- build_trie_from_rib (src/ip2asn.py lines 72-103): a missing dump
file is answered by sys.exit(1); otherwise every extracted (prefix,
asn) record is inserted into a fresh trie. -/
def build_trie_from_rib : Option (List String) → Except PyErr (Trie String)
  | none => .error (.exitCode 1)
  | some lines => trieOfPairs (buildPairs lines)

/-- The module-level startup flow (src/ip2asn.py lines 147-154): run
setup_trie_data, then load the cache file when it exists, otherwise
rebuild from the RIB dump. -/
def mainFlow (w : World) : Except PyErr (Trie String) :=
  let w2 := setup_trie_data w
  match w2.cache with
  | some f => load_trie_from_file f
  | none => build_trie_from_rib w2.rib

theorem toBits_length (w n : Nat) : (toBits w n).length = w := by
  induction w generalizing n with
  | zero => rfl
  | succ w ih => simp [toBits, ih]

theorem ofBits_append_singleton (l : List Bool) (b : Bool) :
    ofBits (l ++ [b]) = 2 * ofBits l + (if b then 1 else 0) := by
  simp [ofBits, List.foldl_append]

theorem toBits_ofBits (l : List Bool) : toBits l.length (ofBits l) = l := by
  induction l using List.reverseRecOn with
  | nil => rfl
  | append_singleton xs x ih =>
    have hlen : (xs ++ [x]).length = xs.length + 1 := by simp
    rw [hlen, ofBits_append_singleton, toBits]
    have hdiv : (2 * ofBits xs + (if x then 1 else 0)) / 2 = ofBits xs := by
      cases x <;> simp <;> omega
    have hmod : decide ((2 * ofBits xs + (if x then 1 else 0)) % 2 = 1) = x := by
      cases x <;> simp [Nat.mul_add_mod]
    rw [hdiv, hmod, ih]

theorem pfxBits_length (p : Pfx) :
    (pfxBits p).length = min p.len p.family.width := by
  simp [pfxBits, toBits_length]

theorem pfxBits_pathPfx (f : Family) (q : List Bool) (h : q.length ≤ f.width) :
    pfxBits (pathPfx f q) = q := by
  have hlen : (q ++ List.replicate (f.width - q.length) false).length = f.width := by
    simp; omega
  have : toBits f.width (ofBits (q ++ List.replicate (f.width - q.length) false)) =
      q ++ List.replicate (f.width - q.length) false := by
    have := toBits_ofBits (q ++ List.replicate (f.width - q.length) false)
    rwa [hlen] at this
  simp only [pfxBits, pathPfx, this]
  simp [List.take_append_of_le_length (Nat.le_refl q.length)]

theorem pathPfx_inj (f : Family) {q₁ q₂ : List Bool}
    (h : pathPfx f q₁ = pathPfx f q₂) : q₁ = q₂ := by
  have hlen : q₁.length = q₂.length := congrArg Pfx.len h
  have hbits : ofBits (q₁ ++ List.replicate (f.width - q₁.length) false) =
      ofBits (q₂ ++ List.replicate (f.width - q₂.length) false) := congrArg Pfx.bits h
  have h₁ := toBits_ofBits (q₁ ++ List.replicate (f.width - q₁.length) false)
  have h₂ := toBits_ofBits (q₂ ++ List.replicate (f.width - q₂.length) false)
  have hlens : (q₁ ++ List.replicate (f.width - q₁.length) false).length =
      (q₂ ++ List.replicate (f.width - q₂.length) false).length := by
    simp [hlen]
  rw [hlens, hbits] at h₁
  have happ : q₁ ++ List.replicate (f.width - q₁.length) false =
      q₂ ++ List.replicate (f.width - q₂.length) false := h₁.symm.trans h₂
  have hrep : List.replicate (f.width - q₁.length) false =
      List.replicate (f.width - q₂.length) false := by rw [hlen]
  rw [hrep] at happ
  exact List.append_cancel_right happ

theorem optOr_none_right (a : Option α) : optOr a none = a := by
  cases a <;> rfl

theorem optOr_assoc (a b c : Option α) :
    optOr (optOr a b) c = optOr a (optOr b c) := by
  cases a <;> rfl

theorem lookAcc_eq_look (t : BTrie α) (bs : List Bool) (best : Option α) :
    lookAcc t bs best = optOr (look t bs) best := by
  induction t generalizing bs best with
  | nil => simp [lookAcc, look, optOr]
  | node v l r ihl ihr =>
    cases bs with
    | nil => simp [lookAcc, look]
    | cons b bs =>
      cases b with
      | false => simp [lookAcc, look, ihl, optOr_assoc]
      | true => simp [lookAcc, look, ihr, optOr_assoc]

theorem mem_routesB_node {v : Option α} {l r : BTrie α} {p : List Bool} {x : α} :
    (p, x) ∈ routesB (.node v l r) ↔
      (p = [] ∧ v = some x)
      ∨ (∃ q, p = false :: q ∧ (q, x) ∈ routesB l)
      ∨ (∃ q, p = true :: q ∧ (q, x) ∈ routesB r) := by
  cases v <;> simp [routesB, List.mem_map, Prod.ext_iff] <;> aesop

theorem mem_routesB_iff_routeAt (t : BTrie α) (p : List Bool) (x : α) :
    (p, x) ∈ routesB t ↔ routeAt t p = some x := by
  induction t generalizing p with
  | nil => simp [routesB, routeAt]
  | node v l r ihl ihr =>
    cases p with
    | nil =>
      rw [mem_routesB_node]
      simp [routeAt, eq_comm]
    | cons b q =>
      rw [mem_routesB_node]
      cases b <;> simp [routeAt, ihl, ihr]

theorem routeAt_insertB_self (t : BTrie α) (p : List Bool) (x : α) :
    routeAt (insertB t p x) p = some x := by
  induction p generalizing t with
  | nil => cases t <;> simp [insertB, routeAt]
  | cons b q ih =>
    cases t <;> cases b <;> simp [insertB, routeAt, ih]

theorem routeAt_insertB_ne (t : BTrie α) (p q : List Bool) (x : α)
    (h : q ≠ p) : routeAt (insertB t p x) q = routeAt t q := by
  induction p generalizing t q with
  | nil =>
    cases q with
    | nil => exact absurd rfl h
    | cons c q' => cases t <;> cases c <;> simp [insertB, routeAt]
  | cons b p' ih =>
    cases q with
    | nil => cases t <;> cases b <;> simp [insertB, routeAt]
    | cons c q' =>
      by_cases hbc : c = b
      · subst hbc
        have hq : q' ≠ p' := fun he => h (by rw [he])
        cases t <;> cases c <;> simp [insertB, routeAt, ih _ _ hq]
      · cases t <;> cases b <;> cases c <;>
          simp_all [insertB, routeAt]

theorem mem_routesB_insertB (t : BTrie α) (p q : List Bool) (x y : α) :
    (q, y) ∈ routesB (insertB t p x) ↔
      (q = p ∧ y = x) ∨ (q ≠ p ∧ (q, y) ∈ routesB t) := by
  rw [mem_routesB_iff_routeAt, mem_routesB_iff_routeAt]
  by_cases hqp : q = p
  · subst hqp
    simp [routeAt_insertB_self, eq_comm]
  · simp [routeAt_insertB_ne t p q x hqp, hqp]

theorem routesB_keys_nodup (t : BTrie α) :
    ((routesB t).map Prod.fst).Nodup := by
  induction t with
  | nil => simp [routesB]
  | node v l r ihl ihr =>
    have hl : ((routesB l).map (fun pr => (false :: pr.1, pr.2))).map Prod.fst
        = ((routesB l).map Prod.fst).map (fun q => false :: q) := by
      simp [List.map_map]
    have hr : ((routesB r).map (fun pr => (true :: pr.1, pr.2))).map Prod.fst
        = ((routesB r).map Prod.fst).map (fun q => true :: q) := by
      simp [List.map_map]
    have hnl : (((routesB l).map Prod.fst).map (fun q => false :: q)).Nodup :=
      ihl.map (fun a b h => by injection h)
    have hnr : (((routesB r).map Prod.fst).map (fun q => true :: q)).Nodup :=
      ihr.map (fun a b h => by injection h)
    cases v with
    | none =>
      simp only [routesB, List.map_append, List.nil_append]
      refine List.Nodup.append (hl ▸ hnl) (hr ▸ hnr) ?_
      intro q hql hqr
      rw [hl] at hql; rw [hr] at hqr
      obtain ⟨a, _, ha⟩ := List.mem_map.1 hql
      obtain ⟨b, _, hb⟩ := List.mem_map.1 hqr
      rw [← ha] at hb; simp at hb
    | some x =>
      simp only [routesB, List.map_append, List.map_cons, List.map_nil]
      rw [List.singleton_append]
      refine List.Nodup.cons ?_ ?_
      · intro hmem
        rcases List.mem_append.1 hmem with hm | hm
        · rw [hl] at hm
          obtain ⟨a, _, ha⟩ := List.mem_map.1 hm
          simp at ha
        · rw [hr] at hm
          obtain ⟨a, _, ha⟩ := List.mem_map.1 hm
          simp at ha
      · refine List.Nodup.append (hl ▸ hnl) (hr ▸ hnr) ?_
        intro q hql hqr
        rw [hl] at hql; rw [hr] at hqr
        obtain ⟨a, _, ha⟩ := List.mem_map.1 hql
        obtain ⟨b, _, hb⟩ := List.mem_map.1 hqr
        rw [← ha] at hb; simp at hb

theorem match_node_cons {v : Option α} {l r : BTrie α} {b : Bool} {bs : List Bool}
    {p : List Bool} {x : α} :
    ((p, x) ∈ routesB (.node v l r) ∧ p <+: (b :: bs)) ↔
      (p = [] ∧ v = some x)
      ∨ (∃ q, p = b :: q ∧ (q, x) ∈ routesB (if b then r else l) ∧ q <+: bs) := by
  constructor
  · rintro ⟨hm, hpre⟩
    rcases mem_routesB_node.mp hm with ⟨hp, hv⟩ | ⟨q, hp, hq⟩ | ⟨q, hp, hq⟩
    · exact Or.inl ⟨hp, hv⟩
    · subst hp
      obtain ⟨hb, hpre'⟩ := List.cons_prefix_cons.mp hpre
      subst hb
      exact Or.inr ⟨q, rfl, by simpa using hq, hpre'⟩
    · subst hp
      obtain ⟨hb, hpre'⟩ := List.cons_prefix_cons.mp hpre
      subst hb
      exact Or.inr ⟨q, rfl, by simpa using hq, hpre'⟩
  · rintro (⟨hp, hv⟩ | ⟨q, hp, hq, hpre⟩)
    · subst hp
      exact ⟨mem_routesB_node.mpr (Or.inl ⟨rfl, hv⟩), List.nil_prefix⟩
    · subst hp
      refine ⟨mem_routesB_node.mpr ?_, List.cons_prefix_cons.mpr ⟨rfl, hpre⟩⟩
      cases b
      · exact Or.inr (Or.inl ⟨q, rfl, by simpa using hq⟩)
      · exact Or.inr (Or.inr ⟨q, rfl, by simpa using hq⟩)

theorem look_none_iff (t : BTrie α) (bs : List Bool) :
    look t bs = none ↔ ∀ p x, (p, x) ∈ routesB t → ¬ p <+: bs := by
  induction t generalizing bs with
  | nil => simp [look, routesB]
  | node v l r ihl ihr =>
    cases bs with
    | nil =>
      simp only [look]
      constructor
      · rintro hv p x hm hpre
        rw [List.prefix_nil] at hpre; subst hpre
        rcases mem_routesB_node.mp hm with ⟨_, hvx⟩ | ⟨q, hq, _⟩ | ⟨q, hq, _⟩
        · rw [hv] at hvx; exact Option.noConfusion hvx
        · exact List.noConfusion hq
        · exact List.noConfusion hq
      · intro h
        cases hv : v with
        | none => rfl
        | some x =>
          exact absurd List.nil_prefix
            (h [] x (mem_routesB_node.mpr (Or.inl ⟨rfl, hv⟩)))
    | cons b bs =>
      have ihc : look (if b then r else l) bs = none ↔
          ∀ p x, (p, x) ∈ routesB (if b then r else l) → ¬ p <+: bs := by
        cases b
        · exact ihl bs
        · exact ihr bs
      simp only [look]
      constructor
      · intro h p x hm hpre
        have hchild : look (if b then r else l) bs = none ∧ v = none := by
          cases hcl : look (if b then r else l) bs <;> cases hv : v <;>
            simp [hcl, hv, optOr] at h <;> simp
        rcases match_node_cons.mp ⟨hm, hpre⟩ with ⟨_, hvx⟩ | ⟨q, _, hmq, hq⟩
        · rw [hchild.2] at hvx; exact Option.noConfusion hvx
        · exact (ihc.mp hchild.1) q x hmq hq
      · intro h
        have hv : v = none := by
          cases hv : v with
          | none => rfl
          | some x =>
            exact absurd List.nil_prefix
              (h [] x (mem_routesB_node.mpr (Or.inl ⟨rfl, hv⟩)))
        have hc : look (if b then r else l) bs = none := by
          rw [ihc]; intro q x hmq hq
          exact h (b :: q) x
            (match_node_cons.mpr (Or.inr ⟨q, rfl, hmq, hq⟩)).1
            (List.cons_prefix_cons.mpr ⟨rfl, hq⟩)
        rw [hv, hc]; rfl

theorem look_some_iff (t : BTrie α) (bs : List Bool) (x : α) :
    look t bs = some x ↔
      ∃ p, (p, x) ∈ routesB t ∧ p <+: bs ∧
        ∀ q y, (q, y) ∈ routesB t → q <+: bs → q.length ≤ p.length := by
  induction t generalizing bs x with
  | nil => simp [look, routesB]
  | node v l r ihl ihr =>
    cases bs with
    | nil =>
      simp only [look]
      constructor
      · intro hv
        refine ⟨[], mem_routesB_node.mpr (Or.inl ⟨rfl, hv⟩), List.nil_prefix, ?_⟩
        intro q y _ hq
        rw [List.prefix_nil] at hq; subst hq; exact Nat.le_refl _
      · rintro ⟨p, hm, hpre, _⟩
        rw [List.prefix_nil] at hpre; subst hpre
        rcases mem_routesB_node.mp hm with ⟨_, hvx⟩ | ⟨q, hq, _⟩ | ⟨q, hq, _⟩
        · exact hvx
        · exact List.noConfusion hq
        · exact List.noConfusion hq
    | cons b bs =>
      have ihc : ∀ (y : α), look (if b then r else l) bs = some y ↔
          ∃ p, (p, y) ∈ routesB (if b then r else l) ∧ p <+: bs ∧
            ∀ q z, (q, z) ∈ routesB (if b then r else l) → q <+: bs →
              q.length ≤ p.length := by
        cases b
        · exact fun y => ihl bs y
        · exact fun y => ihr bs y
      simp only [look]
      cases hcl : look (if b then r else l) bs with
      | some x₀ =>
        obtain ⟨p₀, hm₀, hpre₀, hmax₀⟩ := (ihc x₀).mp hcl
        have hbpmem := (match_node_cons.mpr
          (Or.inr ⟨p₀, rfl, hm₀, hpre₀⟩) :
          ((b :: p₀, x₀) ∈ routesB (.node v l r) ∧ (b :: p₀) <+: (b :: bs)))
        constructor
        · intro hx
          have hxx : x = x₀ := by
            simp only [optOr] at hx
            exact (Option.some.injEq _ _ ▸ hx).symm
          subst hxx
          refine ⟨b :: p₀, hbpmem.1, hbpmem.2, ?_⟩
          intro q y hmq hq
          rcases match_node_cons.mp ⟨hmq, hq⟩ with ⟨hq0, _⟩ | ⟨q', hq', hmq', hq'pre⟩
          · subst hq0; simp
          · subst hq'
            simpa using Nat.succ_le_succ (hmax₀ q' y hmq' hq'pre)
        · rintro ⟨p, hm, hpre, hmax⟩
          rcases match_node_cons.mp ⟨hm, hpre⟩ with ⟨hp0, hvx⟩ | ⟨p', hp', hm', hpre'⟩
          · exfalso
            have hle := hmax (b :: p₀) x₀ hbpmem.1 hbpmem.2
            rw [hp0] at hle
            simp at hle
          · subst hp'
            have hmaxc : ∀ q y, (q, y) ∈ routesB (if b then r else l) →
                q <+: bs → q.length ≤ p'.length := by
              intro q y hmq hqpre
              have hlift := hmax (b :: q) y
                (match_node_cons.mpr (Or.inr ⟨q, rfl, hmq, hqpre⟩)).1
                (List.cons_prefix_cons.mpr ⟨rfl, hqpre⟩)
              simpa using hlift
            have hcx : look (if b then r else l) bs = some x :=
              (ihc x).mpr ⟨p', hm', hpre', hmaxc⟩
            rw [hcl] at hcx
            injection hcx with hx₀x
            simp [optOr, hx₀x]
      | none =>
        have hnone := (look_none_iff (if b then r else l) bs).mp hcl
        constructor
        · intro hx
          have hvx : v = some x := by simpa [optOr] using hx
          refine ⟨[], mem_routesB_node.mpr (Or.inl ⟨rfl, hvx⟩), List.nil_prefix, ?_⟩
          intro q y hmq hq
          rcases match_node_cons.mp ⟨hmq, hq⟩ with ⟨hq0, _⟩ | ⟨q', hq', hmq', hq'pre⟩
          · subst hq0; exact Nat.le_refl _
          · exact absurd hq'pre (hnone q' y hmq')
        · rintro ⟨p, hm, hpre, _⟩
          rcases match_node_cons.mp ⟨hm, hpre⟩ with ⟨hp0, hvx⟩ | ⟨p', hp', hm', hpre'⟩
          · simp [optOr, hvx]
          · exact absurd hpre' (hnone p' x hm')

/-- If two tries store the same set of routes, the longest-prefix-match
walk answers identically on them. -/
theorem look_congr {t₁ t₂ : BTrie α}
    (h : ∀ p x, (p, x) ∈ routesB t₁ ↔ (p, x) ∈ routesB t₂) (bs : List Bool) :
    look t₁ bs = look t₂ bs := by
  cases hl : look t₁ bs with
  | none =>
    have := (look_none_iff t₁ bs).mp hl
    exact ((look_none_iff t₂ bs).mpr fun p x hm => this p x ((h p x).mpr hm)).symm
  | some x =>
    obtain ⟨p, hm, hpre, hmax⟩ := (look_some_iff t₁ bs x).mp hl
    exact ((look_some_iff t₂ bs x).mpr
      ⟨p, (h p x).mp hm, hpre,
        fun q y hmq hq => hmax q y ((h q y).mpr hmq) hq⟩).symm

theorem Trie.lookup_eq_look (t : Trie α) (a : Addr) :
    t.lookup a = look (t.fam a.family) (addrBits a) := by
  rw [Trie.lookup, lookAcc_eq_look, optOr_none_right]

theorem boundedB_nil (w : Nat) : BoundedB w (.nil : BTrie α) := by
  intro pr hpr; simp [routesB] at hpr

theorem boundedB_insertB {w : Nat} {t : BTrie α} (h : BoundedB w t)
    {p : List Bool} (hp : p.length ≤ w) (x : α) :
    BoundedB w (insertB t p x) := by
  rintro ⟨q, y⟩ hq
  rcases (mem_routesB_insertB t p q x y).mp hq with ⟨hqp, _⟩ | ⟨_, hm⟩
  · simpa [hqp] using hp
  · exact h ⟨q, y⟩ hm

theorem bounded_insert {t : Trie α} (h : Bounded t) (p : Pfx) (x : α) :
    Bounded (t.insert p x) := by
  have hlen : (pfxBits p).length ≤ p.family.width := by
    rw [pfxBits_length]; exact Nat.min_le_right _ _
  cases hf : p.family <;>
    exact ⟨by simp only [Trie.insert, hf]
              first
                | exact boundedB_insertB h.1 (by rwa [hf] at hlen) x
                | exact h.1,
           by simp only [Trie.insert, hf]
              first
                | exact boundedB_insertB h.2 (by rwa [hf] at hlen) x
                | exact h.2⟩

theorem bounded_buildTrie (l : List (Pfx × α)) : Bounded (buildTrie l) := by
  suffices h : ∀ (t : Trie α), Bounded t →
      Bounded (l.foldl (fun t pr => t.insert pr.1 pr.2) t) by
    exact h Trie.empty ⟨boundedB_nil _, boundedB_nil _⟩
  induction l with
  | nil => intro t ht; exact ht
  | cons pr rest ih =>
    intro t ht
    exact ih _ (bounded_insert ht pr.1 pr.2)

theorem fam_insert (t : Trie α) (p : Pfx) (x : α) (f : Family) :
    (t.insert p x).fam f =
      if p.family = f then insertB (t.fam f) (pfxBits p) x else t.fam f := by
  cases hp : p.family <;> cases f <;> simp [Trie.insert, Trie.fam, hp]

theorem projF_cons (f : Family) (pr : Pfx × α) (rest : List (Pfx × α)) :
    projF f (pr :: rest) =
      if pr.1.family = f then (pfxBits pr.1, pr.2) :: projF f rest
      else projF f rest := by
  by_cases h : pr.1.family = f <;> simp [projF, List.filterMap_cons, h]

theorem fam_foldl_insert (f : Family) (l : List (Pfx × α)) (t : Trie α) :
    (l.foldl (fun t pr => t.insert pr.1 pr.2) t).fam f =
      (projF f l).foldl (fun s pr => insertB s pr.1 pr.2) (t.fam f) := by
  induction l generalizing t with
  | nil => simp [projF]
  | cons pr rest ih =>
    rw [List.foldl_cons, ih, projF_cons]
    by_cases h : pr.1.family = f <;> simp [h, fam_insert]

theorem fam_buildTrie (f : Family) (l : List (Pfx × α)) :
    (buildTrie l).fam f =
      (projF f l).foldl (fun s pr => insertB s pr.1 pr.2) .nil := by
  rw [buildTrie, fam_foldl_insert]
  cases f <;> rfl

theorem routeAt_foldl_insertB (prs : List (List Bool × α)) (t : BTrie α)
    (q : List Bool) :
    routeAt (prs.foldl (fun s pr => insertB s pr.1 pr.2) t) q =
      optOr (lastVal prs q) (routeAt t q) := by
  induction prs generalizing t with
  | nil => simp [lastVal, optOr]
  | cons pr rest ih =>
    rw [List.foldl_cons, ih, lastVal, optOr_assoc]
    congr 1
    by_cases hpr : pr.1 = q
    · subst hpr
      rw [routeAt_insertB_self]
      simp [optOr]
    · rw [routeAt_insertB_ne t pr.1 q pr.2 (fun h => hpr h.symm)]
      simp [hpr, optOr]

theorem lastVal_isSome_mem (prs : List (List Bool × α)) (q : List Bool)
    (x : α) (h : lastVal prs q = some x) : (q, x) ∈ prs := by
  induction prs with
  | nil => simp [lastVal] at h
  | cons pr rest ih =>
    rw [lastVal] at h
    cases hlv : lastVal rest q with
    | some y =>
      rw [hlv] at h
      simp only [optOr] at h
      injection h with h
      exact List.mem_cons_of_mem _ (ih (by rw [hlv, h]))
    | none =>
      rw [hlv] at h
      by_cases hpr : pr.1 = q
      · simp only [optOr, hpr, if_pos] at h
        injection h with h
        have hpair : pr = (q, x) := by rw [← hpr, ← h]
        rw [hpair]
        exact List.mem_cons_self _ _
      · simp [optOr, hpr] at h

theorem lastVal_none_of_not_mem (prs : List (List Bool × α)) (q : List Bool)
    (h : q ∉ prs.map Prod.fst) : lastVal prs q = none := by
  induction prs with
  | nil => rfl
  | cons pr rest ih =>
    rw [lastVal]
    have h1 : pr.1 ≠ q := fun he => h (by simp [he.symm])
    have h2 : q ∉ rest.map Prod.fst := fun hm => h (by simp [hm])
    simp [ih h2, h1, optOr]

theorem lastVal_eq_some_iff_of_nodup (prs : List (List Bool × α))
    (hnd : (prs.map Prod.fst).Nodup) (q : List Bool) (x : α) :
    lastVal prs q = some x ↔ (q, x) ∈ prs := by
  constructor
  · exact lastVal_isSome_mem prs q x
  · intro hm
    induction prs with
    | nil => simp at hm
    | cons pr rest ih =>
      rw [List.map_cons] at hnd
      obtain ⟨hnotin, hnd'⟩ := List.nodup_cons.mp hnd
      rw [lastVal]
      rcases List.mem_cons.mp hm with he | hm'
      · have hq : pr.1 = q := by rw [← he]
        have hq2 : q ∉ rest.map Prod.fst := by rw [← hq]; exact hnotin
        rw [lastVal_none_of_not_mem rest q hq2]
        have hx : pr.2 = x := by rw [← he]
        simp [optOr, hq, hx]
      · have hqne : pr.1 ≠ q := by
          intro he2
          exact hnotin (by rw [he2]; exact List.mem_map.mpr ⟨(q, x), hm', rfl⟩)
        rw [ih hnd' hm']
        simp [optOr]

theorem bounded_fam {t : Trie α} (hb : Bounded t) (f : Family) :
    BoundedB f.width (t.fam f) := by
  cases f
  · exact hb.1
  · exact hb.2

theorem mem_routes_of_fam (t : Trie α) (f : Family) {q : List Bool} {x : α}
    (h : (q, x) ∈ routesB (t.fam f)) : (pathPfx f q, x) ∈ t.routes := by
  rw [Trie.routes, List.mem_append]
  cases f
  · exact Or.inl (List.mem_map.mpr ⟨(q, x), h, rfl⟩)
  · exact Or.inr (List.mem_map.mpr ⟨(q, x), h, rfl⟩)

theorem fam_of_mem_routes (t : Trie α) {P : Pfx} {x : α}
    (h : (P, x) ∈ t.routes) :
    ∃ q, P = pathPfx P.family q ∧ (q, x) ∈ routesB (t.fam P.family) := by
  rw [Trie.routes, List.mem_append] at h
  rcases h with h | h
  · obtain ⟨pr, hpr, he⟩ := List.mem_map.mp h
    have hP : pathPfx .v4 pr.1 = P := congrArg Prod.fst he
    have hx : pr.2 = x := congrArg Prod.snd he
    have hf : P.family = .v4 := by rw [← hP]; rfl
    refine ⟨pr.1, by rw [hf, hP], ?_⟩
    rw [hf]
    have hm : (pr.1, pr.2) ∈ routesB (t.fam .v4) := hpr
    rw [hx] at hm
    exact hm
  · obtain ⟨pr, hpr, he⟩ := List.mem_map.mp h
    have hP : pathPfx .v6 pr.1 = P := congrArg Prod.fst he
    have hx : pr.2 = x := congrArg Prod.snd he
    have hf : P.family = .v6 := by rw [← hP]; rfl
    refine ⟨pr.1, by rw [hf, hP], ?_⟩
    rw [hf]
    have hm : (pr.1, pr.2) ∈ routesB (t.fam .v6) := hpr
    rw [hx] at hm
    exact hm

theorem containsA_pathPfx (f : Family) (q : List Bool) (a : Addr)
    (h : q.length ≤ f.width) :
    containsA (pathPfx f q) a = true ↔ f = a.family ∧ q <+: addrBits a := by
  have hfam : (pathPfx f q).family = f := rfl
  rw [containsA, hfam, pfxBits_pathPfx f q h]
  simp [List.isPrefixOf_iff_prefix]

theorem pathPfx_len (f : Family) (q : List Bool) :
    (pathPfx f q).len = q.length := rfl

theorem containsA_family {p : Pfx} {a : Addr} (h : containsA p a = true) :
    p.family = a.family := by
  rw [containsA, Bool.and_eq_true, decide_eq_true_eq] at h
  exact h.1

/-- The longest-prefix-match characterization, lifted to the two-family
trie: a successful lookup returns the value of a stored route whose
prefix contains the address and whose length is maximal among stored
routes containing the address. -/
theorem lookup_some_iff_routes {t : Trie α} (hb : Bounded t) (a : Addr) (x : α) :
    t.lookup a = some x ↔
      ∃ pr, pr ∈ t.routes ∧ (pr : Pfx × α).2 = x ∧ containsA pr.1 a = true ∧
        ∀ qr, qr ∈ t.routes → containsA (qr : Pfx × α).1 a = true →
          qr.1.len ≤ pr.1.len := by
  rw [Trie.lookup_eq_look, look_some_iff]
  constructor
  · rintro ⟨p, hm, hpre, hmax⟩
    have hplen : p.length ≤ a.family.width :=
      bounded_fam hb a.family (p, x) hm
    refine ⟨(pathPfx a.family p, x), mem_routes_of_fam t a.family hm, rfl,
      (containsA_pathPfx a.family p a hplen).mpr ⟨rfl, hpre⟩, ?_⟩
    rintro ⟨Q, y⟩ hqr hcont
    obtain ⟨q, hQ, hqm⟩ := fam_of_mem_routes t hqr
    have hfam : Q.family = a.family := containsA_family hcont
    have hqlen : q.length ≤ Q.family.width :=
      bounded_fam hb Q.family (q, y) hqm
    rw [hQ] at hcont
    have hqpre : q <+: addrBits a :=
      ((containsA_pathPfx Q.family q a hqlen).mp hcont).2
    rw [hfam] at hqm
    have := hmax q y hqm hqpre
    rw [hQ, pathPfx_len, pathPfx_len]
    exact this
  · rintro ⟨⟨Q, y⟩, hmem, hval, hcont, hmax⟩
    obtain ⟨q, hQ, hqm⟩ := fam_of_mem_routes t hmem
    have hfam : Q.family = a.family := containsA_family hcont
    have hqlen : q.length ≤ Q.family.width :=
      bounded_fam hb Q.family (q, y) hqm
    rw [hQ] at hcont
    have hqpre : q <+: addrBits a :=
      ((containsA_pathPfx Q.family q a hqlen).mp hcont).2
    rw [hfam] at hqm
    simp only at hval
    rw [hval] at hqm
    refine ⟨q, hqm, hqpre, ?_⟩
    intro q' y' hm' hpre'
    have hlen' : q'.length ≤ a.family.width :=
      bounded_fam hb a.family (q', y') hm'
    have hmem' : (pathPfx a.family q', y') ∈ t.routes :=
      mem_routes_of_fam t a.family hm'
    have hcont' : containsA (pathPfx a.family q') a = true :=
      (containsA_pathPfx a.family q' a hlen').mpr ⟨rfl, hpre'⟩
    have := hmax (pathPfx a.family q', y') hmem' hcont'
    rw [hQ, pathPfx_len] at this
    rw [pathPfx_len] at this
    exact this

/-- A lookup returns `none` exactly when no stored route contains the
queried address. -/
theorem lookup_none_iff_routes {t : Trie α} (hb : Bounded t) (a : Addr) :
    t.lookup a = none ↔
      ∀ pr, pr ∈ t.routes → containsA (pr : Pfx × α).1 a = false := by
  rw [Trie.lookup_eq_look, look_none_iff]
  constructor
  · intro h
    rintro ⟨Q, y⟩ hmem
    by_contra hcn
    rw [Bool.not_eq_false] at hcn
    obtain ⟨q, hQ, hqm⟩ := fam_of_mem_routes t hmem
    have hfam : Q.family = a.family := containsA_family hcn
    have hqlen : q.length ≤ Q.family.width :=
      bounded_fam hb Q.family (q, y) hqm
    rw [hQ] at hcn
    have hqpre : q <+: addrBits a :=
      ((containsA_pathPfx Q.family q a hqlen).mp hcn).2
    rw [hfam] at hqm
    exact h q y hqm hqpre
  · intro h p x hm hpre
    have hplen : p.length ≤ a.family.width :=
      bounded_fam hb a.family (p, x) hm
    have hcont : containsA (pathPfx a.family p) a = true :=
      (containsA_pathPfx a.family p a hplen).mpr ⟨rfl, hpre⟩
    have := h (pathPfx a.family p, x) (mem_routes_of_fam t a.family hm)
    simp only at this
    rw [hcont] at this
    exact Bool.noConfusion this

theorem routes_keys_nodup (t : Trie α) : (t.routes.map Prod.fst).Nodup := by
  rw [Trie.routes, List.map_append]
  have e4 : ((routesB t.v4).map (fun pr => (pathPfx .v4 pr.1, pr.2))).map Prod.fst
      = ((routesB t.v4).map Prod.fst).map (pathPfx .v4) := by
    simp [List.map_map]
  have e6 : ((routesB t.v6).map (fun pr => (pathPfx .v6 pr.1, pr.2))).map Prod.fst
      = ((routesB t.v6).map Prod.fst).map (pathPfx .v6) := by
    simp [List.map_map]
  rw [e4, e6]
  refine List.Nodup.append ?_ ?_ ?_
  · exact (routesB_keys_nodup t.v4).map (fun a b h => pathPfx_inj .v4 h)
  · exact (routesB_keys_nodup t.v6).map (fun a b h => pathPfx_inj .v6 h)
  · intro P h4 h6
    obtain ⟨q1, _, hq1⟩ := List.mem_map.mp h4
    obtain ⟨q2, _, hq2⟩ := List.mem_map.mp h6
    have e1 : P.family = .v4 := by rw [← hq1]; rfl
    have e2 : P.family = .v6 := by rw [← hq2]; rfl
    rw [e1] at e2
    exact Family.noConfusion e2

theorem routes_nodup (t : Trie α) : t.routes.Nodup :=
  List.Nodup.of_map Prod.fst (routes_keys_nodup t)

theorem countP_eq_one_of_nodup_mem {K V : Type} [DecidableEq K] :
    ∀ (l : List (K × V)), (l.map Prod.fst).Nodup → ∀ k : K, k ∈ l.map Prod.fst →
      l.countP (fun r => decide (r.1 = k)) = 1 := by
  intro l
  induction l with
  | nil => simp
  | cons pr rest ih =>
    intro hnd k hk
    rw [List.map_cons] at hnd hk
    obtain ⟨hnotin, hnd'⟩ := List.nodup_cons.mp hnd
    rw [List.countP_cons]
    rcases List.mem_cons.mp hk with he | hm
    · have h0 : rest.countP (fun r => decide (r.1 = k)) = 0 := by
        rw [List.countP_eq_zero]
        intro r hr
        simp only [decide_eq_true_eq]
        intro hrk
        exact hnotin (by rw [← he, ← hrk]; exact List.mem_map.mpr ⟨r, hr, rfl⟩)
      have hp : decide (pr.1 = k) = true := decide_eq_true he.symm
      rw [h0, hp]
      rfl
    · have h1 := ih hnd' k hm
      have hne : pr.1 ≠ k := fun he2 => hnotin (he2 ▸ hm)
      have hp : decide (pr.1 = k) = false := decide_eq_false hne
      rw [h1, hp]
      rfl

theorem canon_mem_insert (t : Trie α) (p : Pfx) (x : α) :
    (p.canon, x) ∈ (t.insert p x).routes := by
  have hfam : (t.insert p x).fam p.family
      = insertB (t.fam p.family) (pfxBits p) x := by
    rw [fam_insert]; simp
  have hm : (pfxBits p, x) ∈ routesB ((t.insert p x).fam p.family) := by
    rw [hfam, mem_routesB_iff_routeAt]
    exact routeAt_insertB_self _ _ _
  exact mem_routes_of_fam _ p.family hm

theorem projF_append (f : Family) (l₁ l₂ : List (Pfx × α)) :
    projF f (l₁ ++ l₂) = projF f l₁ ++ projF f l₂ := by
  rw [projF, projF, projF, List.filterMap_append]

theorem projF_map_pathPfx_self (f : Family) (l : List (List Bool × α))
    (h : ∀ pr ∈ l, (pr : List Bool × α).1.length ≤ f.width) :
    projF f (l.map (fun pr => (pathPfx f pr.1, pr.2))) = l := by
  induction l with
  | nil => rfl
  | cons pr rest ih =>
    rw [List.map_cons, projF_cons]
    have hlen := h pr (List.mem_cons_self _ _)
    rw [if_pos (show (pathPfx f pr.1, pr.2).1.family = f from rfl),
      pfxBits_pathPfx f pr.1 hlen,
      ih (fun x hx => h x (List.mem_cons_of_mem _ hx))]

theorem projF_map_pathPfx_other (f g : Family) (hfg : g ≠ f)
    (l : List (List Bool × α)) :
    projF f (l.map (fun pr => (pathPfx g pr.1, pr.2))) = [] := by
  induction l with
  | nil => rfl
  | cons pr rest ih =>
    rw [List.map_cons, projF_cons,
      if_neg (show ¬((pathPfx g pr.1, pr.2).1.family = f) from hfg)]
    exact ih

theorem projF_routes (t : Trie α) (hb : Bounded t) (f : Family) :
    projF f t.routes = routesB (t.fam f) := by
  rw [Trie.routes, projF_append]
  cases f
  · rw [projF_map_pathPfx_self .v4 (routesB t.v4) hb.1,
      projF_map_pathPfx_other .v4 .v6 (by decide) (routesB t.v6),
      List.append_nil]
    rfl
  · rw [projF_map_pathPfx_self .v6 (routesB t.v6) hb.2,
      projF_map_pathPfx_other .v6 .v4 (by decide) (routesB t.v4),
      List.nil_append]
    rfl

theorem routeAt_nil (q : List Bool) : routeAt (.nil : BTrie α) q = none := by
  cases q <;> rfl

theorem routeAt_fam_buildTrie (l : List (Pfx × α)) (f : Family) (q : List Bool) :
    routeAt ((buildTrie l).fam f) q = lastVal (projF f l) q := by
  rw [fam_buildTrie, routeAt_foldl_insertB, routeAt_nil, optOr_none_right]

theorem routeAt_rebuild (l : List (Pfx × α)) (f : Family) (q : List Bool) :
    routeAt ((buildTrie (buildTrie l).routes).fam f) q
      = routeAt ((buildTrie l).fam f) q := by
  rw [routeAt_fam_buildTrie,
    projF_routes (buildTrie l) (bounded_buildTrie l) f]
  cases hr : routeAt ((buildTrie l).fam f) q with
  | some x =>
    exact (lastVal_eq_some_iff_of_nodup _ (routesB_keys_nodup _) q x).mpr
      ((mem_routesB_iff_routeAt _ q x).mpr hr)
  | none =>
    apply lastVal_none_of_not_mem
    intro hmem
    obtain ⟨pr, hpr, he⟩ := List.mem_map.mp hmem
    have hsome : routeAt ((buildTrie l).fam f) pr.1 = some pr.2 :=
      (mem_routesB_iff_routeAt _ _ _).mp hpr
    rw [he, hr] at hsome
    exact Option.noConfusion hsome

theorem mem_routes_iff_routeAt_fam (t : Trie α) (P : Pfx) (x : α) :
    (P, x) ∈ t.routes ↔
      ∃ q, P = pathPfx P.family q ∧ routeAt (t.fam P.family) q = some x := by
  constructor
  · intro h
    obtain ⟨q, hQ, hm⟩ := fam_of_mem_routes t h
    exact ⟨q, hQ, (mem_routesB_iff_routeAt _ _ _).mp hm⟩
  · rintro ⟨q, hQ, hr⟩
    have hm : (q, x) ∈ routesB (t.fam P.family) :=
      (mem_routesB_iff_routeAt _ _ _).mpr hr
    have := mem_routes_of_fam t P.family hm
    rwa [← hQ] at this

theorem mem_routes_rebuild (l : List (Pfx × α)) (P : Pfx) (x : α) :
    (P, x) ∈ (buildTrie (buildTrie l).routes).routes
      ↔ (P, x) ∈ (buildTrie l).routes := by
  rw [mem_routes_iff_routeAt_fam, mem_routes_iff_routeAt_fam]
  constructor
  · rintro ⟨q, hQ, hr⟩
    exact ⟨q, hQ, by rwa [routeAt_rebuild] at hr⟩
  · rintro ⟨q, hQ, hr⟩
    exact ⟨q, hQ, by rwa [routeAt_rebuild]⟩

/-- C1: for every trie built by inserting prefix-to-ASN bindings, a
lookup returns the ASN of the longest stored prefix containing the
queried address, and `none` when no stored prefix contains it; in
particular, with 10.0.0.0/8 -> 100 and 10.1.0.0/16 -> 200 stored, the
lookup of 10.1.2.3 is 200, of 10.2.2.3 is 100, and of 11.0.0.1 is
`none`. -/
theorem claim_C1_longest_match :
    (∀ (l : List (Pfx × Nat)) (a : Addr) (x : Nat),
        (buildTrie l).lookup a = some x ↔
          ∃ pr, pr ∈ (buildTrie l).routes ∧ (pr : Pfx × Nat).2 = x ∧
            containsA pr.1 a = true ∧
            ∀ qr, qr ∈ (buildTrie l).routes →
              containsA (qr : Pfx × Nat).1 a = true → qr.1.len ≤ pr.1.len)
    ∧ (∀ (l : List (Pfx × Nat)) (a : Addr),
        (buildTrie l).lookup a = none ↔
          ∀ pr, pr ∈ (buildTrie l).routes →
            containsA (pr : Pfx × Nat).1 a = false)
    ∧ (buildTrie [(⟨.v4, 0x0A000000, 8⟩, 100), (⟨.v4, 0x0A010000, 16⟩, 200)]).lookup
        ⟨.v4, 0x0A010203⟩ = some 200
    ∧ (buildTrie [(⟨.v4, 0x0A000000, 8⟩, 100), (⟨.v4, 0x0A010000, 16⟩, 200)]).lookup
        ⟨.v4, 0x0A020203⟩ = some 100
    ∧ (buildTrie [(⟨.v4, 0x0A000000, 8⟩, 100), (⟨.v4, 0x0A010000, 16⟩, 200)]).lookup
        ⟨.v4, 0x0B000001⟩ = none :=
  ⟨fun l a x => lookup_some_iff_routes (bounded_buildTrie l) a x,
   fun l a => lookup_none_iff_routes (bounded_buildTrie l) a,
   by decide, by decide, by decide⟩

/-- C2: serializing a trie yields its route list and deserializing
re-inserts it, so for every trie the rebuilt trie answers every address
query identically and its stored routes are a permutation of the
original ones. -/
theorem claim_C2_roundtrip :
    ∀ (l : List (Pfx × Nat)),
      (∀ a : Addr,
          (buildTrie (buildTrie l).routes).lookup a = (buildTrie l).lookup a)
      ∧ (buildTrie (buildTrie l).routes).routes.Perm (buildTrie l).routes := by
  intro l
  constructor
  · intro a
    rw [Trie.lookup_eq_look, Trie.lookup_eq_look]
    apply look_congr
    intro p x
    rw [mem_routesB_iff_routeAt, mem_routesB_iff_routeAt, routeAt_rebuild]
  · rw [List.perm_ext_iff_of_nodup (routes_nodup _) (routes_nodup _)]
    rintro ⟨P, x⟩
    exact mem_routes_rebuild l P x

theorem lookAcc_nil (bs : List Bool) (best : Option α) :
    lookAcc (.nil : BTrie α) bs best = best := by
  cases bs <;> rfl

theorem projF_filter (f : Family) (l : List (Pfx × α)) :
    projF f (l.filter (fun pr => decide (pr.1.family = f))) = projF f l := by
  induction l with
  | nil => rfl
  | cons pr rest ih =>
    by_cases h : pr.1.family = f <;>
      simp [List.filter_cons, h, projF_cons, ih]

/-- C3: a lookup consults only the tree of the address family, so an
IPv4 query is decided by the IPv4-keyed bindings alone and an IPv6 query
by the IPv6-keyed ones; in particular a trie holding only the IPv6
prefix 2001:db8::/32 -> 300 answers `none` for every IPv4 query, and a
trie holding only an IPv4 prefix answers `none` for every IPv6 query. -/
theorem claim_C3_family_isolation :
    (∀ (l : List (Pfx × Nat)) (n : Nat),
        (buildTrie l).lookup ⟨.v4, n⟩ =
          (buildTrie (l.filter (fun pr => decide (pr.1.family = .v4)))).lookup
            ⟨.v4, n⟩)
    ∧ (∀ (l : List (Pfx × Nat)) (n : Nat),
        (buildTrie l).lookup ⟨.v6, n⟩ =
          (buildTrie (l.filter (fun pr => decide (pr.1.family = .v6)))).lookup
            ⟨.v6, n⟩)
    ∧ (∀ n : Nat,
        (buildTrie [(⟨.v6, 0x20010db8000000000000000000000000, 32⟩, 300)]).lookup
          ⟨.v4, n⟩ = none)
    ∧ (∀ n : Nat,
        (buildTrie [(⟨.v4, 0x0A000000, 8⟩, 100)]).lookup ⟨.v6, n⟩ = none) := by
  refine ⟨?_, ?_, ?_, ?_⟩
  · intro l n
    rw [Trie.lookup, Trie.lookup]
    have hf : ((⟨.v4, n⟩ : Addr)).family = .v4 := rfl
    rw [hf, fam_buildTrie, fam_buildTrie, projF_filter]
  · intro l n
    rw [Trie.lookup, Trie.lookup]
    have hf : ((⟨.v6, n⟩ : Addr)).family = .v6 := rfl
    rw [hf, fam_buildTrie, fam_buildTrie, projF_filter]
  · intro n
    rw [Trie.lookup]
    have hnil :
        (buildTrie [(⟨.v6, 0x20010db8000000000000000000000000, 32⟩, 300)]).fam
          ((⟨.v4, n⟩ : Addr)).family = .nil := rfl
    rw [hnil, lookAcc_nil]
  · intro n
    rw [Trie.lookup]
    have hnil :
        (buildTrie [(⟨.v4, 0x0A000000, 8⟩, 100)]).fam
          ((⟨.v6, n⟩ : Addr)).family = .nil := rfl
    rw [hnil, lookAcc_nil]

/-- C4: inserting a binding for a prefix leaves exactly one stored route
for that prefix, carrying the inserted ASN (so a duplicate insert
overwrites, last write wins); in particular inserting 192.0.2.0/24 ->
64500 and then 192.0.2.0/24 -> 64501 leaves the single route
192.0.2.0/24 -> 64501. -/
theorem claim_C4_overwrite :
    (∀ (t : Trie Nat) (p : Pfx) (x : Nat),
        (t.insert p x).routes.countP (fun r => decide (r.1 = p.canon)) = 1
        ∧ (p.canon, x) ∈ (t.insert p x).routes)
    ∧ (buildTrie [(⟨.v4, 0xC0000200, 24⟩, 64500), (⟨.v4, 0xC0000200, 24⟩, 64501)]).routes
        = [(⟨.v4, 0xC0000200, 24⟩, 64501)] := by
  refine ⟨fun t p x => ⟨?_, canon_mem_insert t p x⟩, by decide⟩
  exact countP_eq_one_of_nodup_mem _ (routes_keys_nodup _) _
    (List.mem_map.mpr ⟨(p.canon, x), canon_mem_insert t p x, rfl⟩)

theorem ribGo_append (xs ys : List String) (cur : Option String) :
    ribGo cur (xs ++ ys) = ribGo cur xs ++ ribGo (ribState cur xs) ys := by
  induction xs generalizing cur with
  | nil => rfl
  | cons ln ls ih =>
    rw [List.cons_append]
    simp only [ribGo, ribState]
    by_cases h1 : pyStartsWith ln "PREFIX:" = true
    · simp [h1, ih]
    · by_cases h2 : pyStartsWith ln "ASPATH:" = true
      · cases cur with
        | none => simp [h1, h2, ih]
        | some p =>
          by_cases hp : p = ""
          · simp [h1, h2, hp, ih]
          · simp [h1, h2, hp, ih]
      · simp [h1, h2, ih]

theorem ribGo_ignored (mid : List String) (cur : Option String)
    (h : ∀ ln ∈ mid, pyStartsWith ln "PREFIX:" = false
      ∧ pyStartsWith ln "ASPATH:" = false) :
    ribGo cur mid = [] ∧ ribState cur mid = cur := by
  induction mid with
  | nil => exact ⟨rfl, rfl⟩
  | cons ln ls ih =>
    obtain ⟨h1, h2⟩ := h ln (List.mem_cons_self _ _)
    obtain ⟨ihg, ihs⟩ := ih (fun x hx => h x (List.mem_cons_of_mem _ hx))
    constructor <;> simp only [ribGo, ribState] <;> simp [h1, h2, ihg, ihs]

theorem ribGo_state_indep (rest : List String) (h : headOk rest = true)
    (c₁ c₂ : Option String) : ribGo c₁ rest = ribGo c₂ rest := by
  cases rest with
  | nil => rfl
  | cons q ls =>
    simp only [headOk] at h
    simp only [ribGo]
    simp [h]

/-- C7: a PREFIX: record followed by no ASPATH: line before the next
PREFIX: line (or the end of the dump) is silently dropped: the records
extracted from the dump are exactly those of the dump without that
PREFIX: line and the ignored lines after it, so every other valid
record is preserved; and when the dangling prefix token is not the
prefix of any remaining valid record, it is absent from the extracted
records (hence from the trie built by inserting them). -/
theorem claim_C7_dangling_dropped
    (pre mid rest : List String) (pline : String)
    (hp : pyStartsWith pline "PREFIX:" = true)
    (hmid : ∀ ln ∈ mid, pyStartsWith ln "PREFIX:" = false
      ∧ pyStartsWith ln "ASPATH:" = false)
    (hrest : headOk rest = true) :
    buildPairs (pre ++ pline :: (mid ++ rest)) = buildPairs (pre ++ rest)
    ∧ (pyLastTok pline ∉ (buildPairs (pre ++ rest)).map Prod.fst →
        pyLastTok pline ∉
          (buildPairs (pre ++ pline :: (mid ++ rest))).map Prod.fst) := by
  have key : buildPairs (pre ++ pline :: (mid ++ rest))
      = buildPairs (pre ++ rest) := by
    rw [buildPairs, buildPairs, ribGo_append, ribGo_append]
    congr 1
    simp only [ribGo, hp, if_pos]
    rw [ribGo_append, (ribGo_ignored mid _ hmid).1,
      (ribGo_ignored mid _ hmid).2, List.nil_append]
    exact ribGo_state_indep rest hrest _ _
  refine ⟨key, fun h => ?_⟩
  rw [key]
  exact h

theorem claim_C7_witness :
    (pyStartsWith "PREFIX: 8.8.8.0/24\n" "PREFIX:" = true
      ∧ (∀ ln ∈ ["FROM: peer\n"], pyStartsWith ln "PREFIX:" = false
          ∧ pyStartsWith ln "ASPATH:" = false)
      ∧ headOk ([] : List String) = true)
    ∧ (buildPairs (["PREFIX: 9.9.9.0/24\n", "ASPATH: 5 6\n"]
          ++ "PREFIX: 8.8.8.0/24\n" :: (["FROM: peer\n"] ++ []))
        = buildPairs (["PREFIX: 9.9.9.0/24\n", "ASPATH: 5 6\n"] ++ [])
      ∧ (pyLastTok "PREFIX: 8.8.8.0/24\n" ∉
            (buildPairs (["PREFIX: 9.9.9.0/24\n", "ASPATH: 5 6\n"] ++ [])).map
              Prod.fst →
          pyLastTok "PREFIX: 8.8.8.0/24\n" ∉
            (buildPairs (["PREFIX: 9.9.9.0/24\n", "ASPATH: 5 6\n"]
              ++ "PREFIX: 8.8.8.0/24\n" :: (["FROM: peer\n"] ++ []))).map
              Prod.fst)) :=
  ⟨⟨by decide, by decide, by decide⟩,
   claim_C7_dangling_dropped ["PREFIX: 9.9.9.0/24\n", "ASPATH: 5 6\n"]
     ["FROM: peer\n"] [] "PREFIX: 8.8.8.0/24\n"
     (by decide) (by decide) (by decide)⟩

/-- C5 counterexample: with no working-directory snapshot, a corrupt
cache file and a readable RIB dump, the script stops with the uncaught
decoding error instead of rebuilding, although the rebuild itself would
succeed. -/
theorem claim_C5_counterexample :
    mainFlow ⟨none, some .corrupt,
        some ["PREFIX: 1.2.3.0/24\n", "ASPATH: 1 2 3\n"]⟩
      = .error .loadError
    ∧ (∀ t, mainFlow ⟨none, some .corrupt,
        some ["PREFIX: 1.2.3.0/24\n", "ASPATH: 1 2 3\n"]⟩ ≠ .ok t)
    ∧ (∃ t, build_trie_from_rib
        (some ["PREFIX: 1.2.3.0/24\n", "ASPATH: 1 2 3\n"]) = .ok t) := by
  refine ⟨rfl, ?_, ⟨_, rfl⟩⟩
  intro t h
  have h1 : mainFlow ⟨none, some .corrupt,
      some ["PREFIX: 1.2.3.0/24\n", "ASPATH: 1 2 3\n"]⟩
      = .error .loadError := rfl
  rw [h1] at h
  exact Except.noConfusion h

/-- C5 amended: only absence of the cache file leads to a rebuild from
the RIB dump; a present well-formed cache is decoded and loaded; but a
present corrupt cache terminates the script with the uncaught decoding
error instead of falling back to a rebuild. -/
theorem claim_C5_cache_flow :
    ∀ (rib : Option (List String)) (entries : List (String × String)),
      mainFlow ⟨none, none, rib⟩ = build_trie_from_rib rib
      ∧ mainFlow ⟨none, some (.good entries), rib⟩ = trieOfPairs entries
      ∧ mainFlow ⟨none, some .corrupt, rib⟩ = .error .loadError :=
  fun _ _ => ⟨rfl, rfl, rfl⟩

/-- C8: when a rebuild is needed and the RIB dump file is missing,
build_trie_from_rib terminates with the non-zero exit status 1 and no
trie is produced. -/
theorem claim_C8_missing_rib_fatal :
    build_trie_from_rib none = .error (.exitCode 1)
    ∧ (∃ n, n ≠ 0 ∧ build_trie_from_rib none = .error (.exitCode n))
    ∧ ∀ t, build_trie_from_rib none ≠ .ok t := by
  refine ⟨rfl, ⟨1, one_ne_zero, rfl⟩, ?_⟩
  intro t h
  have h1 : build_trie_from_rib none = .error (.exitCode 1) := rfl
  rw [h1] at h
  exact Except.noConfusion h

/-- C9: a trie_data.json.gz snapshot in the working directory is copied
over the cache file before the cache is consulted, so the trie the
script loads comes from that snapshot, whatever the prior cache
contents and the RIB dump were. -/
theorem claim_C9_cwd_snapshot_wins :
    ∀ (f : FileData) (cache : Option FileData) (rib : Option (List String)),
      (setup_trie_data ⟨some f, cache, rib⟩).cache = some f
      ∧ mainFlow ⟨some f, cache, rib⟩ = load_trie_from_file f :=
  fun _ _ _ => ⟨rfl, rfl⟩

theorem filterIps_ok_all_parse :
    ∀ (ips l : List String), filterIps ips = .ok l →
      ∀ ip ∈ ips, (parseAddr ip).isSome = true := by
  intro ips
  induction ips with
  | nil => intro l _ ip hip; simp at hip
  | cons ip rest ih =>
    intro l h x hx
    simp only [filterIps] at h
    cases hpriv : is_private_ip ip with
    | error e => rw [hpriv] at h; exact Except.noConfusion h
    | ok b =>
      rw [hpriv] at h
      cases hrest : filterIps rest with
      | error e => rw [hrest] at h; exact Except.noConfusion h
      | ok l2 =>
        rcases List.mem_cons.mp hx with he | hm
        · subst he
          rw [is_private_ip] at hpriv
          cases hpa : parseAddr x with
          | none => rw [hpa] at hpriv; exact Except.noConfusion hpriv
          | some a => simp [hpa]
        · exact ih l2 hrest x hm

theorem filterIps_error_valueError :
    ∀ (ips : List String) (e : PyErr), filterIps ips = .error e →
      e = .valueError := by
  intro ips
  induction ips with
  | nil => intro e h; simp only [filterIps] at h; exact Except.noConfusion h
  | cons ip rest ih =>
    intro e h
    simp only [filterIps] at h
    cases hpriv : is_private_ip ip with
    | error e2 =>
      rw [hpriv] at h
      injection h with h
      rw [is_private_ip] at hpriv
      cases hpa : parseAddr ip with
      | none =>
        rw [hpa] at hpriv
        injection hpriv with h2
        rw [← h, ← h2]
      | some a => rw [hpa] at hpriv; exact Except.noConfusion hpriv
    | ok b =>
      rw [hpriv] at h
      cases hrest : filterIps rest with
      | error e2 =>
        rw [hrest] at h
        injection h with h
        rw [← h]
        exact ih e2 hrest
      | ok l2 => rw [hrest] at h; exact Except.noConfusion h

/-- C6 amended: a batch line whose stripped text is not a valid IP
literal makes the whole run raise ValueError while filtering (there is
no handler), so no result is produced for any line. -/
theorem claim_C6_invalid_line_fatal :
    ∀ (lines : List String) (t : Trie String),
      (∃ ln ∈ lines, parseAddr (pyStrip ln) = none) →
      runBatch lines t = .error .valueError := by
  rintro lines t ⟨ln, hln, hbad⟩
  cases hf : filterIps (lines.map pyStrip) with
  | error e =>
    have he := filterIps_error_valueError _ e hf
    rw [runBatch, hf, he]
  | ok l =>
    exfalso
    have hall := filterIps_ok_all_parse _ l hf (pyStrip ln)
      (List.mem_map.mpr ⟨ln, hln, rfl⟩)
    rw [hbad] at hall
    simp at hall

/-- C6 counterexample: a batch with the invalid literal not-an-ip after
a valid address aborts with ValueError; no result map is produced for
the remaining lines. -/
theorem claim_C6_counterexample :
    runBatch ["8.8.8.8", "not-an-ip"] (Trie.empty : Trie String)
      = .error .valueError
    ∧ ∀ m, runBatch ["8.8.8.8", "not-an-ip"] (Trie.empty : Trie String)
      ≠ .ok m := by
  refine ⟨rfl, ?_⟩
  intro m h
  have h1 : runBatch ["8.8.8.8", "not-an-ip"] (Trie.empty : Trie String)
      = .error .valueError := rfl
  rw [h1] at h
  exact Except.noConfusion h

theorem claim_C6_witness :
    (∃ ln ∈ ["8.8.8.8", "not-an-ip"], parseAddr (pyStrip ln) = none)
    ∧ runBatch ["8.8.8.8", "not-an-ip"] (Trie.empty : Trie String)
      = .error .valueError :=
  ⟨by decide, claim_C6_invalid_line_fatal ["8.8.8.8", "not-an-ip"]
    Trie.empty (by decide)⟩

theorem dictInsert_keys_mem (m : List (String × β)) (k : String) (v : β)
    (x : String) :
    x ∈ (dictInsert m k v).map Prod.fst ↔ x = k ∨ x ∈ m.map Prod.fst := by
  induction m with
  | nil => simp [dictInsert]
  | cons e m ih =>
    by_cases he : e.1 = k <;> simp [dictInsert, he, ih] <;> tauto

theorem dictInsert_keys_nodup (m : List (String × β)) (k : String) (v : β)
    (h : (m.map Prod.fst).Nodup) :
    ((dictInsert m k v).map Prod.fst).Nodup := by
  induction m with
  | nil => simp [dictInsert]
  | cons e m ih =>
    rw [List.map_cons] at h
    obtain ⟨hnotin, hnd⟩ := List.nodup_cons.mp h
    by_cases he : e.1 = k
    · simp only [dictInsert, he, if_pos, List.map_cons, List.nodup_cons]
      exact ⟨by rw [← he]; exact hnotin, hnd⟩
    · simp only [dictInsert, he, if_neg, ite_false, List.map_cons,
        List.nodup_cons]
      refine ⟨?_, ih hnd⟩
      intro hmem
      rw [dictInsert_keys_mem] at hmem
      rcases hmem with h1 | h2
      · exact he h1
      · exact hnotin h2

theorem findAsnGo_ok_keys :
    ∀ (ips : List String) (t : Trie α) (m0 m : List (String × Option α)),
      findAsnGo t m0 ips = .ok m →
      ((m0.map Prod.fst).Nodup → (m.map Prod.fst).Nodup)
      ∧ (∀ x, x ∈ m.map Prod.fst ↔ x ∈ m0.map Prod.fst ∨ x ∈ ips) := by
  intro ips
  induction ips with
  | nil =>
    intro t m0 m h
    simp only [findAsnGo] at h
    injection h with h
    subst h
    exact ⟨id, fun x => by simp⟩
  | cons ip rest ih =>
    intro t m0 m h
    simp only [findAsnGo] at h
    cases hg : trieGet t ip with
    | error e => rw [hg] at h; exact Except.noConfusion h
    | ok v =>
      rw [hg] at h
      obtain ⟨hnod, hmem⟩ := ih t (dictInsert m0 ip v) m h
      refine ⟨fun h0 => hnod (dictInsert_keys_nodup _ _ _ h0), fun x => ?_⟩
      rw [hmem x, dictInsert_keys_mem]
      simp only [List.mem_cons]
      tauto

theorem filterIps_ok_mem :
    ∀ (ips l : List String), filterIps ips = .ok l →
      ∀ x, x ∈ l ↔ x ∈ ips ∧ publicLit x = true := by
  intro ips
  induction ips with
  | nil =>
    intro l h x
    simp only [filterIps] at h
    injection h with h
    subst h
    simp
  | cons ip rest ih =>
    intro l h x
    simp only [filterIps] at h
    cases hpriv : is_private_ip ip with
    | error e => rw [hpriv] at h; exact Except.noConfusion h
    | ok b =>
      rw [hpriv] at h
      cases hrest : filterIps rest with
      | error e => rw [hrest] at h; exact Except.noConfusion h
      | ok l2 =>
        rw [hrest] at h
        injection h with h
        subst h
        have hb : publicLit ip = !b := by
          rw [is_private_ip] at hpriv
          rw [publicLit]
          cases hpa : parseAddr ip with
          | none => rw [hpa] at hpriv; exact Except.noConfusion hpriv
          | some a =>
            rw [hpa] at hpriv
            injection hpriv with hpriv
            show (!isPrivateAddr a) = !b
            rw [hpriv]
        cases b with
        | true =>
          rw [if_pos rfl, ih l2 hrest x]
          constructor
          · rintro ⟨hm, hpub⟩
            exact ⟨List.mem_cons_of_mem _ hm, hpub⟩
          · rintro ⟨hm, hpub⟩
            rcases List.mem_cons.mp hm with he | hm2
            · subst he
              rw [hb] at hpub
              exact Bool.noConfusion hpub
            · exact ⟨hm2, hpub⟩
        | false =>
          rw [if_neg Bool.false_ne_true, List.mem_cons, ih l2 hrest x]
          constructor
          · rintro (he | ⟨hm, hpub⟩)
            · subst he
              exact ⟨List.mem_cons_self _ _, by rw [hb]; rfl⟩
            · exact ⟨List.mem_cons_of_mem _ hm, hpub⟩
          · rintro ⟨hm, hpub⟩
            rcases List.mem_cons.mp hm with he | hm2
            · exact Or.inl he
            · exact Or.inr ⟨hm2, hpub⟩

theorem totalOcc_addToBucket (bs : List (String × List String))
    (k ip x : String) :
    totalOcc x (addToBucket bs k ip)
      = totalOcc x bs + (if ip = x then 1 else 0) := by
  induction bs with
  | nil =>
    simp [addToBucket, totalOcc, List.countP_cons]
  | cons b bs ih =>
    by_cases hb : b.1 = k
    · simp only [addToBucket, hb, if_pos, totalOcc, List.map_cons,
        List.sum_cons, List.countP_append, List.countP_cons, List.countP_nil]
      simp only [totalOcc, decide_eq_true_eq] at *
      omega
    · simp only [addToBucket, hb, ite_false, totalOcc, List.map_cons,
        List.sum_cons]
      simp only [totalOcc] at ih
      omega

theorem totalOcc_jsonGroup_aux :
    ∀ (m : List (String × Option String)) (bs : List (String × List String))
      (x : String),
      totalOcc x (m.foldl (fun bs e => addToBucket bs (bucketKey e.2) e.1) bs)
        = totalOcc x bs + m.countP (fun e => decide (e.1 = x)) := by
  intro m
  induction m with
  | nil => intro bs x; simp [totalOcc]
  | cons e m ih =>
    intro bs x
    rw [List.foldl_cons, ih, totalOcc_addToBucket, List.countP_cons]
    simp only [decide_eq_true_eq]
    omega

/-- C10: the per-query result mapping is a dict keyed by the address
string: its keys are distinct; every public valid input line puts its
stripped address among the keys; and each present address owns exactly
one map entry (one line of human output) and exactly one occurrence
across the JSON buckets, however many input lines repeated it. -/
theorem claim_C10_dedup :
    ∀ (lines : List String) (t : Trie String)
      (m : List (String × Option String)),
      runBatch lines t = .ok m →
      (m.map Prod.fst).Nodup
      ∧ (∀ ln ∈ lines, publicLit (pyStrip ln) = true →
          pyStrip ln ∈ m.map Prod.fst)
      ∧ (∀ ip, ip ∈ m.map Prod.fst →
          m.countP (fun e => decide (e.1 = ip)) = 1
          ∧ totalOcc ip (jsonGroup m) = 1) := by
  intro lines t m h
  rw [runBatch] at h
  cases hf : filterIps (lines.map pyStrip) with
  | error e => rw [hf] at h; exact Except.noConfusion h
  | ok fl =>
    rw [hf] at h
    obtain ⟨hnod, hmem⟩ := findAsnGo_ok_keys fl t [] m h
    have hnodm : (m.map Prod.fst).Nodup := hnod (by simp)
    have hmem2 : ∀ x, x ∈ m.map Prod.fst ↔ x ∈ fl := by
      intro x
      rw [hmem x]
      simp
    refine ⟨hnodm, ?_, ?_⟩
    · intro ln hln hpub
      rw [hmem2]
      rw [filterIps_ok_mem _ fl hf]
      exact ⟨List.mem_map.mpr ⟨ln, hln, rfl⟩, hpub⟩
    · intro ip hip
      refine ⟨countP_eq_one_of_nodup_mem m hnodm ip hip, ?_⟩
      rw [jsonGroup, totalOcc_jsonGroup_aux m [] ip]
      rw [countP_eq_one_of_nodup_mem m hnodm ip hip]
      rfl

theorem claim_C10_witness :
    (runBatch ["8.8.8.8", "8.8.8.8"] (Trie.empty : Trie String)
        = .ok [("8.8.8.8", none)])
    ∧ (([("8.8.8.8", (none : Option String))].map Prod.fst).Nodup
      ∧ (∀ ln ∈ ["8.8.8.8", "8.8.8.8"], publicLit (pyStrip ln) = true →
          pyStrip ln ∈ [("8.8.8.8", (none : Option String))].map Prod.fst)
      ∧ (∀ ip, ip ∈ [("8.8.8.8", (none : Option String))].map Prod.fst →
          [("8.8.8.8", (none : Option String))].countP
            (fun e => decide (e.1 = ip)) = 1
          ∧ totalOcc ip (jsonGroup [("8.8.8.8", (none : Option String))]) = 1)) :=
  ⟨rfl, claim_C10_dedup ["8.8.8.8", "8.8.8.8"] Trie.empty
    [("8.8.8.8", none)] rfl⟩

end IpToAsn
